import Mathlib

/-!
Shallow embedding of the gaps-n-laps source (src/src/index.js) and proofs of
the specification claims about it.

Modelling conventions:
* Times are minutes from midnight of "today" (the run date), as `Int`.
  The JavaScript code stores epoch milliseconds; every comparison, difference
  and sum in the code is invariant under the affine change of scale, and one
  calendar day is 1440 minutes.  `new Date(y, m, d, H, M)` with out-of-range
  `H`/`M` normalizes by carrying, i.e. it denotes minute `60*H + M` of the day.
* `Math.max(...[])` (the empty spread) yields `-Infinity` in JavaScript; the
  embedding returns `Option Int` with `none` for that case.
* Colors are structured HSLA records instead of CSS strings; the alpha channel
  is kept in permille (`500` = `0.5`, `1000` = fully opaque).
* The DOM row scan is abstracted to a list of `Row` values: a header row
  (a `tr` with an `id`) or a content row (optional interval text, optional
  activity cell text); this is the boundary the spec calls the row feed.
-/

namespace GapsNLaps

/-- A parsed time interval; `startTime`/`stopTime` are minutes from midnight of
the run day.  `activity` is the optional activity cell text attached by the
caller (`none` models an absent cell). -/
structure Interval where
  startTime : Int
  stopTime : Int
  activity : Option String
deriving DecidableEq, Repr

/-- The character class of the `\s` regex atom (the members relevant to this
code base: ASCII whitespace and no-break space). -/
def isWsChar (c : Char) : Bool :=
  c == ' ' || c == '\t' || c == '\n' || c == '\r' || c == '\x0b' || c == '\x0c' || c == ' '

/-- Numeric value of a two-digit group, e.g. the chars 9 and 9 give 99. -/
def digitPairVal (a b : Char) : Nat :=
  10 * (a.toNat - 48) + (b.toNat - 48)

/-- The four captured two-digit fields of one regex match of
`\((\d{2}):(\d{2})\s*-\s*(\d{2}):(\d{2})\)`. -/
structure RawMatch where
  startHour : Nat
  startMinute : Nat
  stopHour : Nat
  stopMinute : Nat
deriving DecidableEq, Repr

/-- Match `\s*-\s*(\d{2}):(\d{2})\)` at the head of `cs`; on success return the
two captured values and the remainder of the input after the match. -/
def matchSecondTime (cs : List Char) : Option ((Nat × Nat) × List Char) :=
  match cs.dropWhile isWsChar with
  | c0 :: rest =>
    if c0 = '-' then
      match rest.dropWhile isWsChar with
      | d0 :: d1 :: colon :: d2 :: d3 :: close :: rest2 =>
        if d0.isDigit && d1.isDigit && colon = ':' && d2.isDigit && d3.isDigit && close = ')' then
          some ((digitPairVal d0 d1, digitPairVal d2 d3), rest2)
        else none
      | _ => none
    else none
  | [] => none

/-- Attempt the full pattern `\((\d{2}):(\d{2})\s*-\s*(\d{2}):(\d{2})\)` at the
head of `cs`; on success return the captures and the rest of the input. -/
def matchAt (cs : List Char) : Option (RawMatch × List Char) :=
  match cs with
  | c0 :: d0 :: d1 :: colon :: d2 :: d3 :: rest =>
    if c0 = '(' && d0.isDigit && d1.isDigit && colon = ':' && d2.isDigit && d3.isDigit then
      match matchSecondTime rest with
      | some ((h2, m2), rest2) =>
        some (⟨digitPairVal d0 d1, digitPairVal d2 d3, h2, m2⟩, rest2)
      | none => none
    else none
  | _ => none

/-- Fuel-bounded global regex scan: at the current position, try the whole
pattern; on a match, emit its captures and resume after the match (the JS
`exec` loop with a `g` flag advances `lastIndex` to the match end), otherwise
advance one character.  Each step consumes at least one character, so
`cs.length` fuel suffices; fuel makes the function structurally recursive. -/
def scanFuel : Nat → List Char → List RawMatch
  | 0, _ => []
  | fuel + 1, cs =>
    match matchAt cs with
    | some (q, rest) => q :: scanFuel fuel rest
    | none =>
      match cs with
      | [] => []
      | _ :: cs2 => scanFuel fuel cs2

/-- All matches of the interval pattern in `cs`, leftmost first,
non-overlapping. -/
def scanIntervals (cs : List Char) : List RawMatch :=
  scanFuel cs.length cs

/-- Normalized interval from one regex match: both times are anchored to the
run day (minute `60*H + M`, with out-of-range fields carrying over, exactly as
`new Date(year, month, day, H, M)` does); when the provisional stop is
strictly earlier than the start, one calendar day (1440 minutes) is added. -/
def intervalOfMatch (q : RawMatch) (activity : Option String) : Interval :=
  let startTime : Int := 60 * q.startHour + q.startMinute
  let stop0 : Int := 60 * q.stopHour + q.stopMinute
  { startTime := startTime
    stopTime := if stop0 < startTime then stop0 + 1440 else stop0
    activity := activity }

/-- JavaScript `String.prototype.trim`: drop whitespace from both ends. -/
def jsTrim (cs : List Char) : List Char :=
  ((cs.dropWhile isWsChar).reverse.dropWhile isWsChar).reverse

/-- Embedding of `getIntervalsFromString`: trim, scan for all matches of
`\((\d{2}):(\d{2})\s*-\s*(\d{2}):(\d{2})\)`, and build one normalized interval
per match, in match order. -/
def getIntervalsFromString (s : String) (activity : Option String) : List Interval :=
  (scanIntervals (jsTrim s.data)).map (fun q => intervalOfMatch q activity)

/-- Embedding of `getGroupStartTime`: start of the first interval, `none`
(JS `null`) when the group has no intervals. -/
def getGroupStartTime (intervals : List Interval) : Option Int :=
  match intervals with
  | [] => none
  | iv :: _ => some iv.startTime

/-- Embedding of `getGroupStopTime`: stop of the interval at index
`length - 1`, `none` (JS `null`) when the group has no intervals. -/
def getGroupStopTime (intervals : List Interval) : Option Int :=
  match intervals.getLast? with
  | none => none
  | some iv => some iv.stopTime

/-- Embedding of `getGroupTotalTime`: `reduce` of `stop - start` over the
intervals with initial accumulator 0. -/
def getGroupTotalTime (intervals : List Interval) : Int :=
  intervals.foldl (fun total iv => total + (iv.stopTime - iv.startTime)) 0

/-- The amount one adjacent pair `(prev, curr)` adds to the gap total:
`curr.startTime - prev.stopTime` when positive, else nothing. -/
def gapContrib (prev curr : Interval) : Int :=
  if curr.startTime - prev.stopTime > 0 then curr.startTime - prev.stopTime else 0

/-- The amount one adjacent pair `(prev, curr)` adds to the overlap total:
`prev.stopTime - curr.startTime` when positive, else nothing. -/
def overlapContrib (prev curr : Interval) : Int :=
  if prev.stopTime - curr.startTime > 0 then prev.stopTime - curr.startTime else 0

def gapLoop : Interval → List Interval → Int
  | _, [] => 0
  | prev, curr :: rest => gapContrib prev curr + gapLoop curr rest

/-- Embedding of `getGroupTotalGapTime`: the loop over indices `1..n-1`
accumulating the positive part of `intervals[i].start - intervals[i-1].stop`. -/
def getGroupTotalGapTime : List Interval → Int
  | [] => 0
  | first :: rest => gapLoop first rest

def overlapLoop : Interval → List Interval → Int
  | _, [] => 0
  | prev, curr :: rest => overlapContrib prev curr + overlapLoop curr rest

/-- Embedding of `getGroupTotalOverlapTime`: the loop over indices `1..n-1`
accumulating the positive part of `intervals[i-1].stop - intervals[i].start`. -/
def getGroupTotalOverlapTime : List Interval → Int
  | [] => 0
  | first :: rest => overlapLoop first rest

/-- Insert `x` into an already processed list, placing it before the first
element whose start is strictly later: together with `sortByStart` this is the
stable ascending sort by `startTime` that `Array.prototype.sort` with the
comparator `a.startTime - b.startTime` performs (ties keep input order). -/
def insertSortedByStart (x : Interval) : List Interval → List Interval
  | [] => [x]
  | y :: ys =>
    if x.startTime < y.startTime then x :: y :: ys else y :: insertSortedByStart x ys

/-- Stable sort of the intervals ascending by `startTime`. -/
def sortByStart (l : List Interval) : List Interval :=
  l.foldl (fun acc x => insertSortedByStart x acc) []

/-- An HSLA color; `alphaPermille` is the alpha channel times 1000
(`500` is the 0.5 of the source, `1000` is fully opaque). -/
structure Hsla where
  hue : Nat
  saturationPct : Nat
  lightnessPct : Nat
  alphaPermille : Nat
deriving DecidableEq, Repr

/-- The color the source falls back to when an interval has no assigned
activity color: `hsla(0, 0%, 0%, 0.5)`, a semi-transparent black. -/
def fallbackColor : Hsla := ⟨0, 0, 0, 500⟩

/-- The `forEach((activity, index))` body of
`generateUniqueColorForActivities`: the activity at running index `idx` gets
hue `idx * hueStep`, saturation 70%, lightness 50%, alpha 0.5. -/
def assignColorsFrom (hueStep : Nat) : Nat → List String → List (String × Hsla)
  | _, [] => []
  | idx, a :: rest => (a, ⟨idx * hueStep, 70, 50, 500⟩) :: assignColorsFrom hueStep (idx + 1) rest

/-- Embedding of `generateUniqueColorForActivities`: hue step
`Math.floor(360 / activities.length)` (Nat division; for zero activities the
JS value is `Infinity` but the loop body never runs, matching the empty
result here), iterated over the label set in insertion order. -/
def generateUniqueColorForActivities (activities : List String) : List (String × Hsla) :=
  assignColorsFrom (360 / activities.length) 0 activities

/-- Color attached to an interval: `activityColors[interval.activity]` when
that lookup hits, otherwise the fallback (`undefined` activity, an activity
absent from the map, and the resulting `||` fallback all collapse here). -/
def colorFor (colors : List (String × Hsla)) (act : Option String) : Hsla :=
  (act.bind (fun a => colors.lookup a)).getD fallbackColor

/-- One row handed over by the DOM layer: a header row (a `tr` carrying an
`id`, whose first-cell text is the day string) or a content row (the optional
interval fragment text and the optional activity cell text; `none` models a
missing cell and, for the activity, also the empty string, which the source
treats identically: falsy, so never added to the activity set and never a key
in the color map). -/
inductive Row where
  | header (id : String) (dayString : String)
  | content (intervalText : Option String) (activity : Option String)
deriving DecidableEq, Repr

/-- Intervals contributed by one row: content rows run the parser on their
fragment, header rows and fragment-less rows contribute nothing. -/
def rowIntervals : Row → List Interval
  | .header _ _ => []
  | .content none _ => []
  | .content (some t) act => getIntervalsFromString t act

/-- A group while rows are being scanned: header data plus the intervals
accumulated so far, in row order. -/
structure RawGroup where
  headerRowElementId : String
  dayString : String
  intervals : List Interval
deriving DecidableEq, Repr

/-- The row scan of `groupTableRows`: a header row opens a new group (pushed
to the output immediately, as in the source); a content row appends its
intervals to the current group; content rows before any header are dropped. -/
def accumLoop : List Row → Option RawGroup → List RawGroup
  | [], cur => cur.toList
  | Row.header i d :: rest, cur => cur.toList ++ accumLoop rest (some ⟨i, d, []⟩)
  | Row.content txt act :: rest, cur =>
    match cur with
    | none => accumLoop rest none
    | some g =>
      accumLoop rest (some { g with intervals := g.intervals ++ rowIntervals (Row.content txt act) })

def addActivity (acc : List String) (a : String) : List String :=
  if a ∈ acc then acc else acc ++ [a]

/-- The activity `Set` of `groupTableRows` as a duplicate-free list in
insertion (first occurrence) order.  A label is added only from content rows
under some header, and only when truthy (non-empty). -/
def collectActivitiesLoop : List Row → Bool → List String → List String
  | [], _, acc => acc
  | Row.header _ _ :: rest, _, acc => collectActivitiesLoop rest true acc
  | Row.content _ act :: rest, hasCur, acc =>
    collectActivitiesLoop rest hasCur
      (if hasCur then
        match act with
        | some a => if a = "" then acc else addActivity acc a
        | none => acc
      else acc)

def collectActivities (rows : List Row) : List String :=
  collectActivitiesLoop rows false []

/-- A fully computed group as returned by `groupTableRows`: sorted intervals,
their colors (aligned with `intervals`), and the derived metric fields the
source attaches to the group object. -/
structure ComputedGroup where
  headerRowElementId : String
  dayString : String
  intervals : List Interval
  intervalColors : List Hsla
  totalTime : Int
  startTime : Option Int
  stopTime : Option Int
  totalGapTimeMs : Int
  totalOverlapTimeMs : Int
deriving DecidableEq, Repr

/-- Per-group post-processing of `groupTableRows`: sort the intervals by start
time, attach activity colors, then compute the five derived fields. -/
def computeGroup (activityColors : List (String × Hsla)) (g : RawGroup) : ComputedGroup :=
  let sorted := sortByStart g.intervals
  { headerRowElementId := g.headerRowElementId
    dayString := g.dayString
    intervals := sorted
    intervalColors := sorted.map (fun iv => colorFor activityColors iv.activity)
    totalTime := getGroupTotalTime sorted
    startTime := getGroupStartTime sorted
    stopTime := getGroupStopTime sorted
    totalGapTimeMs := getGroupTotalGapTime sorted
    totalOverlapTimeMs := getGroupTotalOverlapTime sorted }

/-- Embedding of `groupTableRows`: scan the rows into raw groups, build the
activity color map from the distinct activity labels of the whole table, then
sort and compute every group. -/
def groupTableRows (rows : List Row) : List ComputedGroup :=
  let activityColors := generateUniqueColorForActivities (collectActivities rows)
  (accumLoop rows none).map (computeGroup activityColors)

/-- `Math.max` over a spread list; `none` models the `-Infinity` that
JavaScript returns for an empty argument list. -/
def jsMathMax : List Int → Option Int
  | [] => none
  | x :: xs => some (xs.foldl max x)

/-- Embedding of `getMaxGroupTotalTime`:
`Math.max(...groups.map(g => g.totalTime + g.totalGapTimeMs))`. -/
def getMaxGroupTotalTime (groups : List ComputedGroup) : Option Int :=
  jsMathMax (groups.map (fun g => g.totalTime + g.totalGapTimeMs))

/-- The horizontal offset of an interval rectangle in `renderSvgTimeline`, as
a fraction of the timeline (the source multiplies this by 100 for a percent
attribute): `(interval.startTime - group.startTime) / maxGroupTotalTime`.
CAVEAT: rational division by zero is 0 in Lean, whereas the JavaScript
division yields NaN when `maxGroupTotalTime` is 0 (a reachable, unguarded
caller-error path); the embedding therefore only speaks for the program under
a strictly positive scale, and every theorem about this fraction carries that
hypothesis. -/
def offsetFraction (groupStartTime : Int) (scale : Int) (iv : Interval) : ℚ :=
  ((iv.startTime - groupStartTime : Int) : ℚ) / (scale : ℚ)

/-- The width of an interval rectangle in `renderSvgTimeline`, as a fraction
of the timeline (the source multiplies this by 100 for a percent attribute):
`(interval.stopTime - interval.startTime) / maxGroupTotalTime`.
The zero-division caveat of `offsetFraction` applies here equally: theorems
about this fraction require a strictly positive scale. -/
def widthFraction (scale : Int) (iv : Interval) : ℚ :=
  ((iv.stopTime - iv.startTime : Int) : ℚ) / (scale : ℚ)

/-- The latest stop timestamp over the intervals of a group, in the words of
the specification sentence about `groupStop` (this is NOT what the source
computes; it is stated here to be compared against `getGroupStopTime`). -/
def latestStopTime (intervals : List Interval) : Option Int :=
  jsMathMax (intervals.map (fun iv => iv.stopTime))

/-- Whether a row is a header (boundary) row. -/
def Row.isHeader : Row → Bool
  | .header _ _ => true
  | .content _ _ => false

/-- One successful tail match consumes at least one character. -/
theorem matchSecondTime_length {cs : List Char} {v rest}
    (h : matchSecondTime cs = some (v, rest)) : rest.length < cs.length := by
  unfold matchSecondTime at h
  split at h
  next c0 r heq =>
    split at h
    · split at h
      next d0 d1 colon d2 d3 close rest2 heq2 =>
        split at h
        · have l1 : (d0 :: d1 :: colon :: d2 :: d3 :: close :: rest2).length ≤ r.length := by
            rw [← heq2]; exact (List.dropWhile_sublist isWsChar).length_le
          have l2 : (c0 :: r).length ≤ cs.length := by
            rw [← heq]; exact (List.dropWhile_sublist isWsChar).length_le
          cases h
          simp only [List.length_cons] at l1 l2
          omega
        · exact absurd h (by simp)
      next => exact absurd h (by simp)
    · exact absurd h (by simp)
  next => exact absurd h (by simp)

/-- One successful full match consumes at least one character. -/
theorem matchAt_length {cs : List Char} {q rest}
    (h : matchAt cs = some (q, rest)) : rest.length < cs.length := by
  unfold matchAt at h
  split at h
  next c0 d0 d1 colon d2 d3 r =>
    split at h
    · rcases hms : matchSecondTime r with _ | ⟨⟨h2, m2⟩, rest2⟩ <;> rw [hms] at h
      · exact absurd h (by simp)
      · simp only [Option.some.injEq, Prod.mk.injEq] at h
        obtain ⟨-, hrest⟩ := h
        have := matchSecondTime_length hms
        subst hrest
        simp only [List.length_cons]
        omega
    · exact absurd h (by simp)
  next => exact absurd h (by simp)

theorem scanFuel_nil (f : Nat) : scanFuel f [] = [] := by
  cases f <;> simp [scanFuel, matchAt]

/-- The result of `scanFuel` does not depend on the fuel once the fuel covers
the input length. -/
theorem scanFuel_fuel_irrel :
    ∀ (f1 f2 : Nat) (cs : List Char), cs.length ≤ f1 → cs.length ≤ f2 →
      scanFuel f1 cs = scanFuel f2 cs := by
  intro f1
  induction f1 using Nat.strong_induction_on with
  | _ f1 ih =>
    intro f2 cs h1 h2
    match f1, f2, cs with
    | f1, f2, [] => rw [scanFuel_nil, scanFuel_nil]
    | f1 + 1, f2 + 1, c :: cs2 =>
      simp only [scanFuel]
      rcases hm : matchAt (c :: cs2) with _ | ⟨q, rest⟩
      · simp only [List.length_cons] at h1 h2
        exact ih f1 (by omega) f2 cs2 (by omega) (by omega)
      · have := matchAt_length hm
        simp only [List.length_cons] at h1 h2 this
        exact congrArg _ (ih f1 (by omega) f2 rest (by omega) (by omega))

/-- Unfolding equation for the scan, independent of fuel bookkeeping: this is
the loop of the source verbatim. -/
theorem scanIntervals_eq (cs : List Char) :
    scanIntervals cs =
      match matchAt cs with
      | some (q, rest) => q :: scanIntervals rest
      | none =>
        match cs with
        | [] => []
        | _ :: cs2 => scanIntervals cs2 := by
  unfold scanIntervals
  rcases cs with _ | ⟨c, cs2⟩
  · simp [scanFuel, matchAt]
  · simp only [List.length_cons, scanFuel]
    rcases hm : matchAt (c :: cs2) with _ | ⟨q, rest⟩
    · exact scanFuel_fuel_irrel _ _ _ (by omega) (by omega)
    · have := matchAt_length hm
      simp only [List.length_cons] at this
      exact congrArg _ (scanFuel_fuel_irrel _ _ _ (by omega) (by omega))

theorem foldl_add_dur (l : List Interval) (c : Int) :
    l.foldl (fun t iv => t + (iv.stopTime - iv.startTime)) c =
      c + (l.map (fun iv => iv.stopTime - iv.startTime)).sum := by
  induction l generalizing c with
  | nil => simp
  | cons x xs ih => simp only [List.foldl_cons, List.map_cons, List.sum_cons, ih]; omega

theorem getGroupTotalTime_eq_sum (l : List Interval) :
    getGroupTotalTime l = (l.map (fun iv => iv.stopTime - iv.startTime)).sum := by
  unfold getGroupTotalTime
  simpa using foldl_add_dur l 0

theorem getGroupTotalTime_cons (x : Interval) (l : List Interval) :
    getGroupTotalTime (x :: l) = (x.stopTime - x.startTime) + getGroupTotalTime l := by
  simp [getGroupTotalTime_eq_sum]

theorem gapContrib_nonneg (p c : Interval) : 0 ≤ gapContrib p c := by
  unfold gapContrib; split <;> omega

theorem overlapContrib_nonneg (p c : Interval) : 0 ≤ overlapContrib p c := by
  unfold overlapContrib; split <;> omega

theorem gapLoop_nonneg (x : Interval) (l : List Interval) : 0 ≤ gapLoop x l := by
  induction l generalizing x with
  | nil => simp [gapLoop]
  | cons y ys ih => have := gapContrib_nonneg x y; simp only [gapLoop]; have := ih y; omega

theorem getGroupTotalGapTime_nonneg (l : List Interval) : 0 ≤ getGroupTotalGapTime l := by
  cases l with
  | nil => simp [getGroupTotalGapTime]
  | cons x xs => exact gapLoop_nonneg x xs

theorem getGroupTotalTime_nonneg (l : List Interval)
    (h : ∀ iv ∈ l, iv.startTime ≤ iv.stopTime) : 0 ≤ getGroupTotalTime l := by
  induction l with
  | nil => simp [getGroupTotalTime]
  | cons x xs ih =>
    rw [getGroupTotalTime_cons]
    have h1 := h x (by simp)
    have h2 := ih (fun iv hiv => h iv (by simp [hiv]))
    omega

theorem dur_le_getGroupTotalTime (l : List Interval)
    (h : ∀ iv ∈ l, iv.startTime ≤ iv.stopTime) {iv : Interval} (hiv : iv ∈ l) :
    iv.stopTime - iv.startTime ≤ getGroupTotalTime l := by
  induction l with
  | nil => cases hiv
  | cons x xs ih =>
    rw [getGroupTotalTime_cons]
    rcases List.mem_cons.mp hiv with rfl | hmem
    · have := getGroupTotalTime_nonneg xs (fun a ha => h a (by simp [ha]))
      omega
    · have h1 := h x (by simp)
      have := ih (fun a ha => h a (by simp [ha])) hmem
      omega

theorem le_foldl_max_init (xs : List Int) (a : Int) : a ≤ xs.foldl max a := by
  induction xs generalizing a with
  | nil => simp
  | cons x xs ih => exact le_trans (le_max_left a x) (ih (max a x))

theorem le_foldl_max_of_mem {x : Int} {xs : List Int} (h : x ∈ xs) (a : Int) :
    x ≤ xs.foldl max a := by
  induction xs generalizing a with
  | nil => cases h
  | cons y ys ih =>
    rcases List.mem_cons.mp h with rfl | hmem
    · exact le_trans (le_max_right a x) (le_foldl_max_init ys (max a x))
    · exact ih hmem (max a y)

theorem foldl_max_mem (xs : List Int) (a : Int) :
    xs.foldl max a = a ∨ xs.foldl max a ∈ xs := by
  induction xs generalizing a with
  | nil => left; rfl
  | cons y ys ih =>
    rcases ih (max a y) with heq | hmem
    · rcases le_total a y with hle | hle
      · right; rw [List.foldl_cons, heq, max_eq_right hle]; exact List.mem_cons_self y ys
      · left; rw [List.foldl_cons, heq, max_eq_left hle]
    · right; exact List.mem_cons_of_mem y hmem

theorem jsMathMax_spec {l : List Int} {m : Int} (h : jsMathMax l = some m) :
    m ∈ l ∧ ∀ x ∈ l, x ≤ m := by
  cases l with
  | nil => cases h
  | cons x xs =>
    simp only [jsMathMax, Option.some.injEq] at h
    subst h
    refine ⟨?_, ?_⟩
    · rcases foldl_max_mem xs x with heq | hmem
      · rw [heq]; exact List.mem_cons_self x xs
      · exact List.mem_cons_of_mem x hmem
    · intro y hy
      rcases List.mem_cons.mp hy with rfl | hmem
      · exact le_foldl_max_init xs y
      · exact le_foldl_max_of_mem hmem x

theorem jsMathMax_isSome {l : List Int} (h : l ≠ []) : ∃ m, jsMathMax l = some m := by
  cases l with
  | nil => exact absurd rfl h
  | cons x xs => exact ⟨xs.foldl max x, rfl⟩

theorem jsMathMax_const_zero {l : List Int} (hne : l ≠ []) (h : ∀ x ∈ l, x = 0) :
    jsMathMax l = some 0 := by
  obtain ⟨m, hm⟩ := jsMathMax_isSome hne
  obtain ⟨hmem, -⟩ := jsMathMax_spec hm
  rw [hm, h m hmem]

theorem insertSortedByStart_perm (x : Interval) (l : List Interval) :
    (insertSortedByStart x l).Perm (x :: l) := by
  induction l with
  | nil => exact List.Perm.refl _
  | cons y ys ih =>
    unfold insertSortedByStart
    split
    · exact List.Perm.refl _
    · exact (List.Perm.cons y ih).trans (List.Perm.swap x y ys)

theorem foldl_insertSorted_perm (l : List Interval) :
    ∀ acc : List Interval,
      (l.foldl (fun acc x => insertSortedByStart x acc) acc).Perm (acc ++ l) := by
  induction l with
  | nil => intro acc; simp
  | cons x xs ih =>
    intro acc
    show (xs.foldl (fun acc x => insertSortedByStart x acc) (insertSortedByStart x acc)).Perm _
    have h1 := ih (insertSortedByStart x acc)
    have h2 : (insertSortedByStart x acc ++ xs).Perm ((x :: acc) ++ xs) :=
      (insertSortedByStart_perm x acc).append_right xs
    have h3 : ((x :: acc) ++ xs).Perm (acc ++ x :: xs) := List.perm_middle.symm
    exact (h1.trans h2).trans h3

theorem sortByStart_perm (l : List Interval) : (sortByStart l).Perm l := by
  simpa using foldl_insertSorted_perm l []

theorem mem_insertSortedByStart {a x : Interval} {l : List Interval} :
    a ∈ insertSortedByStart x l ↔ a = x ∨ a ∈ l := by
  rw [(insertSortedByStart_perm x l).mem_iff, List.mem_cons]

theorem insertSortedByStart_sorted {x : Interval} {l : List Interval}
    (h : l.Pairwise (fun a b => a.startTime ≤ b.startTime)) :
    (insertSortedByStart x l).Pairwise (fun a b => a.startTime ≤ b.startTime) := by
  induction l with
  | nil => simp [insertSortedByStart]
  | cons y ys ih =>
    rw [List.pairwise_cons] at h
    obtain ⟨hy, hys⟩ := h
    unfold insertSortedByStart
    split
    next hlt =>
      refine List.Pairwise.cons ?_ (List.Pairwise.cons hy hys)
      intro b hb
      rcases List.mem_cons.mp hb with rfl | hmem
      · omega
      · have := hy b hmem; omega
    next hge =>
      refine List.Pairwise.cons ?_ (ih hys)
      intro b hb
      rcases mem_insertSortedByStart.mp hb with rfl | hmem
      · omega
      · exact hy b hmem

theorem sortByStart_sorted (l : List Interval) :
    (sortByStart l).Pairwise (fun a b => a.startTime ≤ b.startTime) := by
  unfold sortByStart
  generalize hacc : ([] : List Interval) = acc
  have hsorted : acc.Pairwise (fun a b => a.startTime ≤ b.startTime) := by
    subst hacc; simp
  clear hacc
  induction l generalizing acc with
  | nil => exact hsorted
  | cons x xs ih => exact ih _ (insertSortedByStart_sorted hsorted)

/-- Two permutations of the same intervals that are both sorted by start time
coincide when no two intervals share a start time. -/
theorem eq_of_perm_sorted_nodup_starts :
    ∀ {l₁ l₂ : List Interval}, l₁.Perm l₂ →
      l₁.Pairwise (fun a b => a.startTime ≤ b.startTime) →
      l₂.Pairwise (fun a b => a.startTime ≤ b.startTime) →
      (l₁.map (fun iv => iv.startTime)).Nodup → l₁ = l₂ := by
  intro l₁
  induction l₁ with
  | nil => intro l₂ hp _ _ _; exact hp.nil_eq
  | cons x t₁ ih =>
    intro l₂ hp hs₁ hs₂ hnd
    cases l₂ with
    | nil => exact absurd hp (by simp)
    | cons y t₂ =>
      rw [List.pairwise_cons] at hs₁ hs₂
      have hxy : x = y := by
        by_contra hne
        have hx2 : x ∈ y :: t₂ := hp.mem_iff.mp (by simp)
        have hy1 : y ∈ x :: t₁ := hp.mem_iff.mpr (by simp)
        have hxt : x ∈ t₂ := by
          rcases List.mem_cons.mp hx2 with h | h
          · exact absurd h hne
          · exact h
        have hyt : y ∈ t₁ := by
          rcases List.mem_cons.mp hy1 with h | h
          · exact absurd h.symm hne
          · exact h
        have h1 : y.startTime ≤ x.startTime := hs₂.1 x hxt
        have h2 : x.startTime ≤ y.startTime := hs₁.1 y hyt
        rw [List.map_cons, List.nodup_cons] at hnd
        exact hnd.1 (List.mem_map.mpr ⟨y, hyt, by omega⟩)
      subst hxy
      have ht : t₁.Perm t₂ := hp.cons_inv
      rw [List.map_cons, List.nodup_cons] at hnd
      rw [ih ht hs₁.2 hs₂.2 hnd.2]

theorem getGroupTotalGapTime_cons₂ (x y : Interval) (l : List Interval) :
    getGroupTotalGapTime (x :: y :: l) = gapContrib x y + getGroupTotalGapTime (y :: l) := rfl

theorem getGroupTotalOverlapTime_cons₂ (x y : Interval) (l : List Interval) :
    getGroupTotalOverlapTime (x :: y :: l) =
      overlapContrib x y + getGroupTotalOverlapTime (y :: l) := rfl

/-- The derived fields of every group produced by `groupTableRows` are the
metric functions applied to its (sorted) interval list, and its colors are the
per-interval activity colors. -/
theorem mem_groupTableRows {rows : List Row} {g : ComputedGroup}
    (hg : g ∈ groupTableRows rows) :
    g.totalTime = getGroupTotalTime g.intervals ∧
    g.startTime = getGroupStartTime g.intervals ∧
    g.stopTime = getGroupStopTime g.intervals ∧
    g.totalGapTimeMs = getGroupTotalGapTime g.intervals ∧
    g.totalOverlapTimeMs = getGroupTotalOverlapTime g.intervals ∧
    g.intervals.Pairwise (fun a b => a.startTime ≤ b.startTime) ∧
    g.intervalColors =
      g.intervals.map (fun iv =>
        colorFor (generateUniqueColorForActivities (collectActivities rows)) iv.activity) := by
  unfold groupTableRows at hg
  obtain ⟨raw, -, rfl⟩ := List.mem_map.mp hg
  exact ⟨rfl, rfl, rfl, rfl, rfl, sortByStart_sorted _, rfl⟩

/-- The distance from the first start to any start in the group is bounded by
total duration plus total gap time (nesting only shrinks the left side). -/
theorem start_sub_head_le_span (x : Interval) (xs : List Interval)
    (hwf : ∀ iv ∈ x :: xs, iv.startTime ≤ iv.stopTime) :
    ∀ iv ∈ x :: xs,
      iv.startTime - x.startTime ≤
        getGroupTotalTime (x :: xs) + getGroupTotalGapTime (x :: xs) := by
  induction xs generalizing x with
  | nil =>
    intro iv hiv
    have hx := hwf x (by simp)
    rcases List.mem_cons.mp hiv with rfl | h
    · simp only [getGroupTotalTime_cons, getGroupTotalGapTime, gapLoop]
      simp only [getGroupTotalTime, List.foldl_nil]
      omega
    · cases h
  | cons y ys ih =>
    intro iv hiv
    have hT : getGroupTotalTime (x :: y :: ys) =
        (x.stopTime - x.startTime) + getGroupTotalTime (y :: ys) := getGroupTotalTime_cons _ _
    have hG := getGroupTotalGapTime_cons₂ x y ys
    have hkey : y.startTime - x.startTime ≤ (x.stopTime - x.startTime) + gapContrib x y := by
      unfold gapContrib; split <;> omega
    have hTpos := getGroupTotalTime_nonneg (y :: ys) (fun a ha => hwf a (by simp [ha]))
    have hGpos := getGroupTotalGapTime_nonneg (y :: ys)
    rcases List.mem_cons.mp hiv with rfl | h
    · have hx := hwf iv (by simp)
      have hc := gapContrib_nonneg iv y
      omega
    · have := ih y (fun a ha => hwf a (by simp [ha])) iv h
      omega

theorem head_start_le {x : Interval} {xs : List Interval}
    (hs : (x :: xs).Pairwise (fun a b => a.startTime ≤ b.startTime)) :
    ∀ iv ∈ x :: xs, x.startTime ≤ iv.startTime := by
  intro iv hiv
  rcases List.mem_cons.mp hiv with rfl | h
  · exact le_refl _
  · exact (List.pairwise_cons.mp hs).1 iv h

theorem getLast?_mem_of_some {l : List Interval} {z : Interval}
    (h : l.getLast? = some z) : z ∈ l := by
  obtain ⟨ys, rfl⟩ := List.getLast?_eq_some_iff.mp h
  simp

/-- In a list sorted ascending by start, every start is bounded by the start
of the last element. -/
theorem start_le_getLast_start :
    ∀ {l : List Interval} {z : Interval},
      l.Pairwise (fun a b => a.startTime ≤ b.startTime) → l.getLast? = some z →
      ∀ iv ∈ l, iv.startTime ≤ z.startTime := by
  intro l
  induction l with
  | nil => intro z _ hz; cases hz
  | cons x xs ih =>
    intro z hs hz iv hiv
    cases xs with
    | nil =>
      simp only [List.getLast?_singleton, Option.some.injEq] at hz
      subst hz
      rcases List.mem_cons.mp hiv with rfl | h
      · exact le_refl _
      · cases h
    | cons y ys =>
      rw [List.getLast?_cons_cons] at hz
      have hz_mem : z ∈ y :: ys := getLast?_mem_of_some hz
      rcases List.mem_cons.mp hiv with rfl | h
      · exact (List.pairwise_cons.mp hs).1 z hz_mem
      · exact ih (List.pairwise_cons.mp hs).2 hz iv h

/-- Scanning rows that contain no header row appends all their intervals, in
row order, to the current group, and emits just that group. -/
theorem accumLoop_no_header (cs : List Row) (g : RawGroup)
    (hcs : ∀ r ∈ cs, r.isHeader = false) :
    accumLoop cs (some g) =
      [{ g with intervals := g.intervals ++ (cs.map rowIntervals).flatten }] := by
  induction cs generalizing g with
  | nil => simp [accumLoop]
  | cons r rest ih =>
    cases r with
    | header i d =>
      have := hcs (Row.header i d) (by simp)
      simp [Row.isHeader] at this
    | content txt act =>
      simp only [accumLoop]
      rw [ih _ (fun r hr => hcs r (by simp [hr]))]
      simp [List.append_assoc]

theorem lookup_assignColorsFrom :
    ∀ (acts : List String), acts.Nodup →
      ∀ (i : Nat) (a : String), acts[i]? = some a →
        ∀ (hueStep k : Nat),
          List.lookup a (assignColorsFrom hueStep k acts) =
            some ⟨(k + i) * hueStep, 70, 50, 500⟩ := by
  intro acts
  induction acts with
  | nil => intro _ i a ha; cases i <;> cases ha
  | cons b rest ih =>
    intro hnd i a ha hueStep k
    obtain ⟨hb, hrest⟩ := List.nodup_cons.mp hnd
    cases i with
    | zero =>
      rw [List.getElem?_cons_zero, Option.some.injEq] at ha
      subst ha
      simp [assignColorsFrom, List.lookup]
    | succ i =>
      rw [List.getElem?_cons_succ] at ha
      have hmem : a ∈ rest := List.getElem?_mem ha
      have hne : (a == b) = false := by
        refine beq_false_of_ne (fun h => ?_)
        subst h; exact hb hmem
      simp only [assignColorsFrom, List.lookup, hne]
      rw [ih hrest i a ha hueStep (k + 1)]
      have heq : k + 1 + i = k + (i + 1) := by omega
      rw [heq]

theorem addActivity_nodup {acc : List String} (h : acc.Nodup) (a : String) :
    (addActivity acc a).Nodup := by
  unfold addActivity
  split
  · exact h
  next hmem => simpa [List.nodup_append] using ⟨h, fun h2 => hmem h2⟩

theorem collectActivitiesLoop_nodup :
    ∀ (rows : List Row) (b : Bool) (acc : List String), acc.Nodup →
      (collectActivitiesLoop rows b acc).Nodup := by
  intro rows
  induction rows with
  | nil => intro _ _ h; exact h
  | cons r rest ih =>
    intro b acc hacc
    cases r with
    | header i d => exact ih true acc hacc
    | content txt act =>
      refine ih b _ ?_
      split
      · cases act with
        | none => exact hacc
        | some a =>
          dsimp only
          split
          · exact hacc
          · exact addActivity_nodup hacc a
      · exact hacc

theorem collectActivities_nodup (rows : List Row) : (collectActivities rows).Nodup :=
  collectActivitiesLoop_nodup rows false [] (by simp)

theorem gapContrib_eq_max (p c : Interval) :
    gapContrib p c = max (c.startTime - p.stopTime) 0 := by
  unfold gapContrib; split <;> omega

theorem overlapContrib_eq_max (p c : Interval) :
    overlapContrib p c = max (p.stopTime - c.startTime) 0 := by
  unfold overlapContrib; split <;> omega

theorem gapLoop_eq_pairs_sum (x : Interval) (l : List Interval) :
    gapLoop x l =
      (((x :: l).zip l).map (fun p => max (p.2.startTime - p.1.stopTime) 0)).sum := by
  induction l generalizing x with
  | nil => simp [gapLoop]
  | cons y ys ih =>
    rw [List.zip_cons_cons, List.map_cons, List.sum_cons]
    simp only [gapLoop, gapContrib_eq_max]
    rw [ih y]

theorem overlapLoop_eq_pairs_sum (x : Interval) (l : List Interval) :
    overlapLoop x l =
      (((x :: l).zip l).map (fun p => max (p.1.stopTime - p.2.startTime) 0)).sum := by
  induction l generalizing x with
  | nil => simp [overlapLoop]
  | cons y ys ih =>
    rw [List.zip_cons_cons, List.map_cons, List.sum_cons]
    simp only [overlapLoop, overlapContrib_eq_max]
    rw [ih y]

theorem isWsChar_eq_false_of_isDigit {c : Char} (h : c.isDigit = true) :
    isWsChar c = false := by
  cases hw : isWsChar c
  · rfl
  · unfold isWsChar at hw
    simp only [Bool.or_eq_true, beq_iff_eq] at hw
    rcases hw with ((((((rfl | rfl) | rfl) | rfl) | rfl) | rfl) | rfl) <;>
      exact absurd h (by decide)

theorem dropWhile_ws_append {w : List Char} (hw : ∀ c ∈ w, isWsChar c = true)
    {c : Char} (hc : isWsChar c = false) (r : List Char) :
    (w ++ c :: r).dropWhile isWsChar = c :: r := by
  induction w with
  | nil => simp [List.dropWhile_cons, hc]
  | cons a as ih =>
    have ha := hw a (by simp)
    simp only [List.cons_append, List.dropWhile_cons, ha, if_true]
    exact ih (fun x hx => hw x (by simp [hx]))

theorem jsTrim_eq_self {c d : Char} (mid : List Char)
    (hc : isWsChar c = false) (hd : isWsChar d = false) :
    jsTrim (c :: (mid ++ [d])) = c :: (mid ++ [d]) := by
  unfold jsTrim
  rw [List.dropWhile_cons_of_neg (by simp [hc])]
  have hrev : (c :: (mid ++ [d])).reverse = d :: (mid.reverse ++ [c]) := by
    simp
  rw [hrev, List.dropWhile_cons_of_neg (by simp [hd]), ← hrev, List.reverse_reverse]

/-- A full well-formed occurrence of the pattern at the head of the input
matches, captures the four two-digit values, and consumes through the closing
parenthesis, whatever the digit values and however much whitespace surrounds
the hyphen. -/
theorem matchAt_wellformed (c1 c2 c3 c4 c5 c6 c7 c8 : Char)
    (h1 : c1.isDigit = true) (h2 : c2.isDigit = true)
    (h3 : c3.isDigit = true) (h4 : c4.isDigit = true)
    (h5 : c5.isDigit = true) (h6 : c6.isDigit = true)
    (h7 : c7.isDigit = true) (h8 : c8.isDigit = true)
    (w1 w2 : List Char) (hw1 : ∀ c ∈ w1, isWsChar c = true)
    (hw2 : ∀ c ∈ w2, isWsChar c = true) (rest : List Char) :
    matchAt ('(' :: c1 :: c2 :: ':' :: c3 :: c4 ::
        (w1 ++ '-' :: (w2 ++ c5 :: c6 :: ':' :: c7 :: c8 :: ')' :: rest))) =
      some (⟨digitPairVal c1 c2, digitPairVal c3 c4,
             digitPairVal c5 c6, digitPairVal c7 c8⟩, rest) := by
  have hms : matchSecondTime (w1 ++ '-' :: (w2 ++ c5 :: c6 :: ':' :: c7 :: c8 :: ')' :: rest)) =
      some ((digitPairVal c5 c6, digitPairVal c7 c8), rest) := by
    have e1 : (w1 ++ '-' :: (w2 ++ c5 :: c6 :: ':' :: c7 :: c8 :: ')' :: rest)).dropWhile
        isWsChar = '-' :: (w2 ++ c5 :: c6 :: ':' :: c7 :: c8 :: ')' :: rest) :=
      dropWhile_ws_append hw1 (by decide) _
    have e2 : (w2 ++ c5 :: c6 :: ':' :: c7 :: c8 :: ')' :: rest).dropWhile isWsChar =
        c5 :: c6 :: ':' :: c7 :: c8 :: ')' :: rest :=
      dropWhile_ws_append hw2 (isWsChar_eq_false_of_isDigit h5) _
    unfold matchSecondTime
    simp only [e1, e2]
    simp [h5, h6, h7, h8]
  unfold matchAt
  simp [hms, h1, h2, h3, h4]

theorem scanIntervals_nil : scanIntervals [] = [] := rfl

/-- A string that is exactly one well-formed occurrence of the pattern scans
to exactly that one match. -/
theorem scanIntervals_single (c1 c2 c3 c4 c5 c6 c7 c8 : Char)
    (h1 : c1.isDigit = true) (h2 : c2.isDigit = true)
    (h3 : c3.isDigit = true) (h4 : c4.isDigit = true)
    (h5 : c5.isDigit = true) (h6 : c6.isDigit = true)
    (h7 : c7.isDigit = true) (h8 : c8.isDigit = true)
    (w1 w2 : List Char) (hw1 : ∀ c ∈ w1, isWsChar c = true)
    (hw2 : ∀ c ∈ w2, isWsChar c = true) :
    scanIntervals ('(' :: c1 :: c2 :: ':' :: c3 :: c4 ::
        (w1 ++ '-' :: (w2 ++ [c5, c6, ':', c7, c8, ')']))) =
      [⟨digitPairVal c1 c2, digitPairVal c3 c4,
        digitPairVal c5 c6, digitPairVal c7 c8⟩] := by
  have hm := matchAt_wellformed c1 c2 c3 c4 c5 c6 c7 c8
    h1 h2 h3 h4 h5 h6 h7 h8 w1 w2 hw1 hw2 []
  rw [scanIntervals_eq]
  simp only [List.append_nil] at hm ⊢
  rw [hm]
  rfl

theorem div_bounds {num scale : Int} (hpos : 0 < scale) (h0 : 0 ≤ num)
    (h1 : num ≤ scale) :
    0 ≤ (num : ℚ) / (scale : ℚ) ∧ (num : ℚ) / (scale : ℚ) ≤ 1 := by
  have hsq : (0 : ℚ) < (scale : ℚ) := by exact_mod_cast hpos
  constructor
  · exact div_nonneg (by exact_mod_cast h0) (le_of_lt hsq)
  · rw [div_le_one hsq]
    exact_mod_cast h1

/-- C5: the parser rolls the stop time forward by exactly one calendar day
(1440 minutes) exactly when the provisional stop is strictly earlier than the
start; an equal start and stop is kept as a zero-length interval; concretely,
"(23:30 - 00:15)" parses to one 45-minute interval whose stop lies on the
next day, and "(09:00 - 09:00)" parses to one zero-duration interval. -/
theorem claim_C5_midnight_rollover :
    (∀ (q : RawMatch) (a : Option String),
      ((60 * q.stopHour + q.stopMinute : Int) < 60 * q.startHour + q.startMinute →
        (intervalOfMatch q a).stopTime = 60 * q.stopHour + q.stopMinute + 1440) ∧
      ((60 * q.stopHour + q.stopMinute : Int) = 60 * q.startHour + q.startMinute →
        (intervalOfMatch q a).stopTime = 60 * q.stopHour + q.stopMinute)) ∧
    getIntervalsFromString "(23:30 - 00:15)" none = [⟨1410, 1455, none⟩] ∧
    ((1455 : Int) - 1410 = 45 ∧ (1440 : Int) ≤ 1455) ∧
    getIntervalsFromString "(09:00 - 09:00)" none = [⟨540, 540, none⟩] := by
  refine ⟨?_, by decide, by decide, by decide⟩
  intro q a
  constructor
  · intro h
    unfold intervalOfMatch
    simp only [if_pos h]
  · intro h
    unfold intervalOfMatch
    simp only
    rw [if_neg (by omega)]

theorem claim_C5_witness :
    (intervalOfMatch ⟨23, 30, 0, 15⟩ none).stopTime = 1455 ∧
    (intervalOfMatch ⟨9, 0, 9, 0⟩ none).stopTime = 540 := by
  constructor
  · rw [(claim_C5_midnight_rollover.1 ⟨23, 30, 0, 15⟩ none).1 (by decide)]
    decide
  · rw [(claim_C5_midnight_rollover.1 ⟨9, 0, 9, 0⟩ none).2 (by decide)]
    decide

/-- C6: the total gap time is the sum, over adjacent pairs of the interval
list, of the positive part of `curr.start - prev.stop`; the total overlap time
is the sum of the positive part of `prev.stop - curr.start`; lists with at
most one interval give 0 for both. -/
theorem claim_C6_gap_overlap_formulas (l : List Interval) :
    getGroupTotalGapTime l =
      ((l.zip l.tail).map (fun p => max (p.2.startTime - p.1.stopTime) 0)).sum ∧
    getGroupTotalOverlapTime l =
      ((l.zip l.tail).map (fun p => max (p.1.stopTime - p.2.startTime) 0)).sum ∧
    (l.length ≤ 1 → getGroupTotalGapTime l = 0 ∧ getGroupTotalOverlapTime l = 0) := by
  refine ⟨?_, ?_, ?_⟩
  · cases l with
    | nil => simp [getGroupTotalGapTime]
    | cons x xs =>
      rw [List.tail_cons]
      exact gapLoop_eq_pairs_sum x xs
  · cases l with
    | nil => simp [getGroupTotalOverlapTime]
    | cons x xs =>
      rw [List.tail_cons]
      exact overlapLoop_eq_pairs_sum x xs
  · intro h
    match l with
    | [] => exact ⟨rfl, rfl⟩
    | [x] => exact ⟨rfl, rfl⟩
    | x :: y :: xs => simp at h

theorem claim_C6_witness :
    getGroupTotalGapTime [(⟨540, 600, none⟩ : Interval)] = 0 ∧
    getGroupTotalOverlapTime [(⟨540, 600, none⟩ : Interval)] = 0 :=
  (claim_C6_gap_overlap_formulas [⟨540, 600, none⟩]).2.2 (by decide)

/-- C7: for an adjacent pair of a computed group, the gap contribution and
the overlap contribution are never both positive, and both vanish exactly
when the previous stop equals the current start. -/
theorem claim_C7_gap_overlap_exclusive (rows : List Row) (g : ComputedGroup)
    (hg : g ∈ groupTableRows rows) (p c : Interval)
    (hpc : (p, c) ∈ g.intervals.zip g.intervals.tail) :
    ¬(0 < gapContrib p c ∧ 0 < overlapContrib p c) ∧
    (gapContrib p c = 0 ∧ overlapContrib p c = 0 ↔ p.stopTime = c.startTime) := by
  have hgap := gapContrib_eq_max p c
  have hov := overlapContrib_eq_max p c
  constructor
  · rintro ⟨h1, h2⟩
    rw [hgap] at h1
    rw [hov] at h2
    omega
  · rw [hgap, hov]
    constructor
    · intro h; omega
    · intro h; omega

theorem claim_C7_witness :
    ¬(0 < gapContrib ⟨540, 600, none⟩ ⟨660, 720, none⟩ ∧
        0 < overlapContrib ⟨540, 600, none⟩ ⟨660, 720, none⟩) ∧
    (gapContrib ⟨540, 600, none⟩ ⟨660, 720, none⟩ = 0 ∧
        overlapContrib ⟨540, 600, none⟩ ⟨660, 720, none⟩ = 0 ↔
      (⟨540, 600, none⟩ : Interval).stopTime = (⟨660, 720, none⟩ : Interval).startTime) :=
  claim_C7_gap_overlap_exclusive
    [Row.header "g1" "Mon", Row.content (some "(09:00 - 10:00)(11:00 - 12:00)") none]
    ⟨"g1", "Mon", [⟨540, 600, none⟩, ⟨660, 720, none⟩], [⟨0, 0, 0, 500⟩, ⟨0, 0, 0, 500⟩],
      120, some 540, some 720, 60, 0⟩
    (by decide) ⟨540, 600, none⟩ ⟨660, 720, none⟩ (by decide)

/-- C10: the parser validates no digit ranges and accepts any amount of
whitespace (including none) around the hyphen: every well-formed occurrence
of the pattern, whatever its two-digit values, parses to the single interval
given by calendar-overflow normalization of the fields, and the parser is a
total function that skips junk text rather than rejecting it; concretely
"(99:99 - 11:11)" yields the (rolled-over) interval from minute 6039 to
minute 2111, "(23:30-00:15)" (no spaces) parses, and junk around a match is
ignored. -/
theorem claim_C10_no_range_validation :
    (∀ (c1 c2 c3 c4 c5 c6 c7 c8 : Char) (w1 w2 : List Char) (a : Option String),
      c1.isDigit = true → c2.isDigit = true → c3.isDigit = true → c4.isDigit = true →
      c5.isDigit = true → c6.isDigit = true → c7.isDigit = true → c8.isDigit = true →
      (∀ c ∈ w1, isWsChar c = true) → (∀ c ∈ w2, isWsChar c = true) →
      getIntervalsFromString
          (String.mk ('(' :: c1 :: c2 :: ':' :: c3 :: c4 ::
            (w1 ++ '-' :: (w2 ++ [c5, c6, ':', c7, c8, ')'])))) a =
        [intervalOfMatch ⟨digitPairVal c1 c2, digitPairVal c3 c4,
          digitPairVal c5 c6, digitPairVal c7 c8⟩ a]) ∧
    getIntervalsFromString "(99:99 - 11:11)" none = [⟨6039, 2111, none⟩] ∧
    getIntervalsFromString "(23:30-00:15)" none = [⟨1410, 1455, none⟩] ∧
    getIntervalsFromString "junk (01:00   -   02:00) tail" none = [⟨60, 120, none⟩] := by
  refine ⟨?_, by decide, by decide, by decide⟩
  intro c1 c2 c3 c4 c5 c6 c7 c8 w1 w2 a h1 h2 h3 h4 h5 h6 h7 h8 hw1 hw2
  unfold getIntervalsFromString
  have hshape : '(' :: c1 :: c2 :: ':' :: c3 :: c4 ::
      (w1 ++ '-' :: (w2 ++ [c5, c6, ':', c7, c8, ')'])) =
      '(' :: ((c1 :: c2 :: ':' :: c3 :: c4 ::
        (w1 ++ '-' :: (w2 ++ [c5, c6, ':', c7, c8]))) ++ [')']) := by
    simp
  have htrim : jsTrim ('(' :: c1 :: c2 :: ':' :: c3 :: c4 ::
      (w1 ++ '-' :: (w2 ++ [c5, c6, ':', c7, c8, ')']))) =
      '(' :: c1 :: c2 :: ':' :: c3 :: c4 ::
        (w1 ++ '-' :: (w2 ++ [c5, c6, ':', c7, c8, ')'])) := by
    rw [hshape]
    exact jsTrim_eq_self _ (by decide) (by decide)
  show (scanIntervals (jsTrim ('(' :: c1 :: c2 :: ':' :: c3 :: c4 ::
      (w1 ++ '-' :: (w2 ++ [c5, c6, ':', c7, c8, ')']))))).map
        (fun q => intervalOfMatch q a) = _
  rw [htrim,
    scanIntervals_single c1 c2 c3 c4 c5 c6 c7 c8 h1 h2 h3 h4 h5 h6 h7 h8 w1 w2 hw1 hw2]
  rfl

theorem claim_C10_witness :
    getIntervalsFromString
        (String.mk ['(', '9', '9', ':', '9', '9', ' ', '-', '1', '1', ':', '1', '1', ')'])
        (some "x") =
      [intervalOfMatch ⟨99, 99, 11, 11⟩ (some "x")] := by
  have h := claim_C10_no_range_validation.1 '9' '9' '9' '9' '1' '1' '1' '1'
    [' '] [] (some "x") (by decide) (by decide) (by decide) (by decide)
    (by decide) (by decide) (by decide) (by decide) (by decide) (by decide)
  simpa using h

/-- C1 counterexample: a single header row with no interval rows is the
all-empty-groups boundary case, and `getMaxGroupTotalTime` returns the
numeric value 0 for it instead of failing with an error. -/
theorem claim_C1_counterexample :
    getMaxGroupTotalTime (groupTableRows [Row.header "g1" "Mon"]) = some 0 := by decide

/-- C1 amended: `getMaxGroupTotalTime` raises no error: on an empty group
sequence it yields the JavaScript `-Infinity` (modelled `none`), and when at
least one group exists but every group is empty it returns the number 0. -/
theorem claim_C1_amended (rows : List Row) :
    (groupTableRows rows = [] → getMaxGroupTotalTime (groupTableRows rows) = none) ∧
    ((groupTableRows rows ≠ [] ∧ ∀ g ∈ groupTableRows rows, g.intervals = []) →
      getMaxGroupTotalTime (groupTableRows rows) = some 0) := by
  constructor
  · intro h
    rw [h]
    rfl
  · rintro ⟨hne, hempty⟩
    unfold getMaxGroupTotalTime
    refine jsMathMax_const_zero ?_ ?_
    · simp only [ne_eq, List.map_eq_nil_iff]
      exact hne
    · intro x hx
      obtain ⟨g, hg, rfl⟩ := List.mem_map.mp hx
      obtain ⟨hT, -, -, hG, -, -, -⟩ := mem_groupTableRows hg
      rw [hT, hG, hempty g hg]
      rfl

theorem claim_C1_witness :
    getMaxGroupTotalTime (groupTableRows [Row.header "g2" "Tue"]) = some 0 :=
  (claim_C1_amended [Row.header "g2" "Tue"]).2 ⟨by decide, by decide⟩

/-- C2 counterexample: a group holding exactly one interval (the zero-length
"(09:00 - 09:00)") makes `getMaxGroupTotalTime` return 0, not a strictly
positive scale, although an interval exists. -/
theorem claim_C2_counterexample :
    (groupTableRows [Row.header "g1" "Mon", Row.content (some "(09:00 - 09:00)") none]).map
        (fun g => g.intervals.length) = [1] ∧
    getMaxGroupTotalTime
        (groupTableRows [Row.header "g1" "Mon", Row.content (some "(09:00 - 09:00)") none]) =
      some 0 := by decide

/-- C2 amended: when some interval exists and every interval in every group
satisfies start ≤ stop (which holds for all in-clock-range inputs), the scale
is a number that is at least 0, and it is strictly positive as soon as some
interval has strictly positive duration. -/
theorem claim_C2_amended (rows : List Row)
    (hex : ∃ g ∈ groupTableRows rows, g.intervals ≠ [])
    (hwf : ∀ g ∈ groupTableRows rows, ∀ iv ∈ g.intervals, iv.startTime ≤ iv.stopTime) :
    ∃ m, getMaxGroupTotalTime (groupTableRows rows) = some m ∧ 0 ≤ m ∧
      ((∃ g ∈ groupTableRows rows, ∃ iv ∈ g.intervals, iv.startTime < iv.stopTime) →
        0 < m) := by
  obtain ⟨g0, hg0, -⟩ := hex
  have hne : (groupTableRows rows).map (fun g => g.totalTime + g.totalGapTimeMs) ≠ [] := by
    simp only [ne_eq, List.map_eq_nil_iff]
    intro h
    rw [h] at hg0
    cases hg0
  obtain ⟨m, hm⟩ := jsMathMax_isSome hne
  obtain ⟨hmem, hle⟩ := jsMathMax_spec hm
  have hval_nonneg : ∀ x ∈ (groupTableRows rows).map (fun g => g.totalTime + g.totalGapTimeMs),
      0 ≤ x := by
    intro x hx
    obtain ⟨g, hg, rfl⟩ := List.mem_map.mp hx
    obtain ⟨hT, -, -, hG, -, -, -⟩ := mem_groupTableRows hg
    have h1 : 0 ≤ getGroupTotalTime g.intervals :=
      getGroupTotalTime_nonneg _ (hwf g hg)
    have h2 := getGroupTotalGapTime_nonneg g.intervals
    rw [hT, hG]
    omega
  refine ⟨m, hm, hval_nonneg m hmem, ?_⟩
  rintro ⟨g, hg, iv, hiv, hpos⟩
  obtain ⟨hT, -, -, hG, -, -, -⟩ := mem_groupTableRows hg
  have h1 : iv.stopTime - iv.startTime ≤ getGroupTotalTime g.intervals :=
    dur_le_getGroupTotalTime _ (hwf g hg) hiv
  have h2 := getGroupTotalGapTime_nonneg g.intervals
  have h3 : g.totalTime + g.totalGapTimeMs ≤ m :=
    hle _ (List.mem_map_of_mem _ hg)
  rw [hT, hG] at h3
  omega

theorem claim_C2_witness :
    ∃ m, getMaxGroupTotalTime
        (groupTableRows [Row.header "g1" "Mon", Row.content (some "(09:00 - 10:00)") none]) =
      some m ∧ 0 ≤ m ∧
      ((∃ g ∈ groupTableRows
          [Row.header "g1" "Mon", Row.content (some "(09:00 - 10:00)") none],
        ∃ iv ∈ g.intervals, iv.startTime < iv.stopTime) → 0 < m) :=
  claim_C2_amended [Row.header "g1" "Mon", Row.content (some "(09:00 - 10:00)") none]
    (by decide) (by decide)

/-- C3 counterexample: with intervals "(09:00 - 17:00)(10:00 - 11:00)"
(the second nested inside the first), the computed `stopTime` is 11:00
(minute 660), the stop of the interval that sorts last by start, while the
latest stop over all intervals is 17:00 (minute 1020). -/
theorem claim_C3_counterexample :
    (groupTableRows [Row.header "g1" "Mon",
        Row.content (some "(09:00 - 17:00)(10:00 - 11:00)") none]).map
      (fun g => g.stopTime) = [some 660] ∧
    (groupTableRows [Row.header "g1" "Mon",
        Row.content (some "(09:00 - 17:00)(10:00 - 11:00)") none]).map
      (fun g => latestStopTime g.intervals) = [some 1020] ∧
    some (660 : Int) ≠ some (1020 : Int) := by decide

/-- C3 amended: `stopTime` is `none` for an empty group and otherwise the
stop of the LAST interval in start-sorted order; it coincides with the latest
stop over all intervals whenever stops are monotone in starts (no interval
nested inside an earlier one). -/
theorem claim_C3_amended (rows : List Row) (g : ComputedGroup)
    (hg : g ∈ groupTableRows rows) :
    (g.intervals = [] → g.stopTime = none) ∧
    (∀ z, g.intervals.getLast? = some z → g.stopTime = some z.stopTime) ∧
    ((∀ a ∈ g.intervals, ∀ b ∈ g.intervals,
        a.startTime ≤ b.startTime → a.stopTime ≤ b.stopTime) →
      g.stopTime = latestStopTime g.intervals) := by
  obtain ⟨-, -, hS, -, -, hsorted, -⟩ := mem_groupTableRows hg
  refine ⟨?_, ?_, ?_⟩
  · intro h
    rw [hS, h]
    rfl
  · intro z hz
    rw [hS]
    unfold getGroupStopTime
    rw [hz]
  · intro hmono
    cases hlast : g.intervals.getLast? with
    | none =>
      have : g.intervals = [] := List.getLast?_eq_none_iff.mp hlast
      rw [hS, this]
      rfl
    | some z =>
      have hzmem := getLast?_mem_of_some hlast
      have hstops_ne : g.intervals.map (fun iv => iv.stopTime) ≠ [] := by
        simp only [ne_eq, List.map_eq_nil_iff]
        intro h
        rw [h] at hzmem
        cases hzmem
      obtain ⟨m, hm⟩ := jsMathMax_isSome hstops_ne
      obtain ⟨hmem, hle⟩ := jsMathMax_spec hm
      have hz_le_m : z.stopTime ≤ m := hle _ (List.mem_map_of_mem _ hzmem)
      have hm_le_z : m ≤ z.stopTime := by
        obtain ⟨a, ha, rfl⟩ := List.mem_map.mp hmem
        exact hmono a ha z hzmem (start_le_getLast_start hsorted hlast a ha)
      have hmz : m = z.stopTime := le_antisymm hm_le_z hz_le_m
      rw [hS]
      unfold getGroupStopTime latestStopTime
      rw [hlast, hm, hmz]

theorem claim_C3_witness :
    ((⟨"g1", "Mon", [⟨540, 600, none⟩, ⟨660, 720, none⟩],
        [⟨0, 0, 0, 500⟩, ⟨0, 0, 0, 500⟩], 120, some 540, some 720, 60, 0⟩ :
        ComputedGroup).intervals = [] →
      (⟨"g1", "Mon", [⟨540, 600, none⟩, ⟨660, 720, none⟩],
        [⟨0, 0, 0, 500⟩, ⟨0, 0, 0, 500⟩], 120, some 540, some 720, 60, 0⟩ :
        ComputedGroup).stopTime = none) ∧
    (∀ z, (⟨"g1", "Mon", [⟨540, 600, none⟩, ⟨660, 720, none⟩],
        [⟨0, 0, 0, 500⟩, ⟨0, 0, 0, 500⟩], 120, some 540, some 720, 60, 0⟩ :
          ComputedGroup).intervals.getLast? = some z →
      (⟨"g1", "Mon", [⟨540, 600, none⟩, ⟨660, 720, none⟩],
        [⟨0, 0, 0, 500⟩, ⟨0, 0, 0, 500⟩], 120, some 540, some 720, 60, 0⟩ :
          ComputedGroup).stopTime = some z.stopTime) ∧
    ((∀ a ∈ (⟨"g1", "Mon", [⟨540, 600, none⟩, ⟨660, 720, none⟩],
        [⟨0, 0, 0, 500⟩, ⟨0, 0, 0, 500⟩], 120, some 540, some 720, 60, 0⟩ :
          ComputedGroup).intervals,
      ∀ b ∈ (⟨"g1", "Mon", [⟨540, 600, none⟩, ⟨660, 720, none⟩],
        [⟨0, 0, 0, 500⟩, ⟨0, 0, 0, 500⟩], 120, some 540, some 720, 60, 0⟩ :
          ComputedGroup).intervals,
        a.startTime ≤ b.startTime → a.stopTime ≤ b.stopTime) →
      (⟨"g1", "Mon", [⟨540, 600, none⟩, ⟨660, 720, none⟩],
        [⟨0, 0, 0, 500⟩, ⟨0, 0, 0, 500⟩], 120, some 540, some 720, 60, 0⟩ :
          ComputedGroup).stopTime =
        latestStopTime (⟨"g1", "Mon", [⟨540, 600, none⟩, ⟨660, 720, none⟩],
          [⟨0, 0, 0, 500⟩, ⟨0, 0, 0, 500⟩], 120, some 540, some 720, 60, 0⟩ :
            ComputedGroup).intervals) :=
  claim_C3_amended [Row.header "g1" "Mon",
      Row.content (some "(09:00 - 10:00)(11:00 - 12:00)") none]
    ⟨"g1", "Mon", [⟨540, 600, none⟩, ⟨660, 720, none⟩],
      [⟨0, 0, 0, 500⟩, ⟨0, 0, 0, 500⟩], 120, some 540, some 720, 60, 0⟩
    (by decide)

/-- C4 counterexample: swapping two content rows whose intervals share the
same start time (rows are a permutation of each other under the same header)
changes the computed `stopTime` and `totalOverlapTimeMs`: the stable sort
keeps tied starts in input order, so the last interval differs. -/
theorem claim_C4_counterexample :
    List.Perm
      [Row.content (some "(09:00 - 10:00)") none, Row.content (some "(09:00 - 12:00)") none]
      [Row.content (some "(09:00 - 12:00)") none, Row.content (some "(09:00 - 10:00)") none] ∧
    (groupTableRows [Row.header "g1" "Mon",
        Row.content (some "(09:00 - 10:00)") none,
        Row.content (some "(09:00 - 12:00)") none]).map (fun g => g.stopTime) =
      [some 720] ∧
    (groupTableRows [Row.header "g1" "Mon",
        Row.content (some "(09:00 - 12:00)") none,
        Row.content (some "(09:00 - 10:00)") none]).map (fun g => g.stopTime) =
      [some 600] ∧
    (groupTableRows [Row.header "g1" "Mon",
        Row.content (some "(09:00 - 10:00)") none,
        Row.content (some "(09:00 - 12:00)") none]).map
        (fun g => g.totalOverlapTimeMs) = [60] ∧
    (groupTableRows [Row.header "g1" "Mon",
        Row.content (some "(09:00 - 12:00)") none,
        Row.content (some "(09:00 - 10:00)") none]).map
        (fun g => g.totalOverlapTimeMs) = [180] := by decide

/-- C4 amended: for content rows under a single header, any permutation of
the content rows yields the same sorted interval list and the same five
derived metrics, PROVIDED no two of the parsed intervals share a start time
(with tied starts the stable sort preserves input order, so permutations can
differ; colors are excluded, as the hue assignment depends on label
first-occurrence order). -/
theorem claim_C4_amended (i d : String) (cs1 cs2 : List Row)
    (hc : ∀ r ∈ cs1, r.isHeader = false)
    (hp : cs1.Perm cs2)
    (hnd : (((cs1.map rowIntervals).flatten).map (fun iv => iv.startTime)).Nodup) :
    (groupTableRows (Row.header i d :: cs1)).map
        (fun g => (g.intervals, g.totalTime, g.startTime, g.stopTime,
                   g.totalGapTimeMs, g.totalOverlapTimeMs)) =
      (groupTableRows (Row.header i d :: cs2)).map
        (fun g => (g.intervals, g.totalTime, g.startTime, g.stopTime,
                   g.totalGapTimeMs, g.totalOverlapTimeMs)) := by
  have hc2 : ∀ r ∈ cs2, r.isHeader = false := fun r hr => hc r (hp.mem_iff.mpr hr)
  have hacc1 : accumLoop (Row.header i d :: cs1) none =
      [⟨i, d, (cs1.map rowIntervals).flatten⟩] := by
    show accumLoop cs1 (some ⟨i, d, []⟩) = _
    rw [accumLoop_no_header cs1 ⟨i, d, []⟩ hc]
    simp
  have hacc2 : accumLoop (Row.header i d :: cs2) none =
      [⟨i, d, (cs2.map rowIntervals).flatten⟩] := by
    show accumLoop cs2 (some ⟨i, d, []⟩) = _
    rw [accumLoop_no_header cs2 ⟨i, d, []⟩ hc2]
    simp
  have hperm : ((cs1.map rowIntervals).flatten).Perm ((cs2.map rowIntervals).flatten) :=
    (hp.map rowIntervals).flatten
  have hsort_eq : sortByStart ((cs1.map rowIntervals).flatten) =
      sortByStart ((cs2.map rowIntervals).flatten) := by
    refine eq_of_perm_sorted_nodup_starts ?_ (sortByStart_sorted _) (sortByStart_sorted _) ?_
    · exact (sortByStart_perm _).trans (hperm.trans (sortByStart_perm _).symm)
    · exact (((sortByStart_perm _).map (fun iv => iv.startTime)).nodup_iff).mpr hnd
  unfold groupTableRows
  rw [hacc1, hacc2]
  simp only [List.map_cons, List.map_nil, computeGroup]
  rw [hsort_eq]

theorem claim_C4_amended_witness :
    (groupTableRows [Row.header "g1" "Mon",
        Row.content (some "(09:00 - 10:00)") none,
        Row.content (some "(11:00 - 12:00)") none]).map
        (fun g => (g.intervals, g.totalTime, g.startTime, g.stopTime,
                   g.totalGapTimeMs, g.totalOverlapTimeMs)) =
      (groupTableRows [Row.header "g1" "Mon",
        Row.content (some "(11:00 - 12:00)") none,
        Row.content (some "(09:00 - 10:00)") none]).map
        (fun g => (g.intervals, g.totalTime, g.startTime, g.stopTime,
                   g.totalGapTimeMs, g.totalOverlapTimeMs)) :=
  claim_C4_amended "g1" "Mon"
    [Row.content (some "(09:00 - 10:00)") none, Row.content (some "(11:00 - 12:00)") none]
    [Row.content (some "(11:00 - 12:00)") none, Row.content (some "(09:00 - 10:00)") none]
    (by decide) (by decide) (by decide)

/-- C8 counterexample: the parser accepts "(99:99 - 11:11)", whose rolled-over
interval still has stop before start; in a group together with a small early
interval the scale is the positive number 2111, and the offset fraction of
the out-of-range interval is 6039/2111 > 1, outside [0, 1]. -/
theorem claim_C8_counterexample :
    (groupTableRows [Row.header "g1" "Mon",
        Row.content (some "(00:00 - 00:10)(99:99 - 11:11)") none]).map
      (fun g => g.intervals) = [[⟨0, 10, none⟩, ⟨6039, 2111, none⟩]] ∧
    (groupTableRows [Row.header "g1" "Mon",
        Row.content (some "(00:00 - 00:10)(99:99 - 11:11)") none]).map
      (fun g => g.startTime) = [some 0] ∧
    getMaxGroupTotalTime (groupTableRows [Row.header "g1" "Mon",
        Row.content (some "(00:00 - 00:10)(99:99 - 11:11)") none]) = some 2111 ∧
    1 < offsetFraction 0 2111 ⟨6039, 2111, none⟩ := by
  refine ⟨by decide, by decide, by decide, ?_⟩
  unfold offsetFraction
  norm_num

/-- C8 amended: with the scale from `getMaxGroupTotalTime`, every interval of
every group has both its offset fraction and width fraction inside [0, 1],
PROVIDED the scale is strictly positive (at scale 0, reachable e.g. from a
single zero-length interval, the program divides by zero and produces NaN)
and every interval of every group satisfies start ≤ stop (true for all
in-clock-range inputs; the parser can violate it on out-of-range fields). -/
theorem claim_C8_amended (rows : List Row) (m : Int)
    (hm : getMaxGroupTotalTime (groupTableRows rows) = some m)
    (hmpos : 0 < m)
    (hwf : ∀ g ∈ groupTableRows rows, ∀ iv ∈ g.intervals, iv.startTime ≤ iv.stopTime)
    (g : ComputedGroup) (hg : g ∈ groupTableRows rows)
    (iv : Interval) (hiv : iv ∈ g.intervals) (gs : Int) (hgs : g.startTime = some gs) :
    0 ≤ offsetFraction gs m iv ∧ offsetFraction gs m iv ≤ 1 ∧
    0 ≤ widthFraction m iv ∧ widthFraction m iv ≤ 1 := by
  obtain ⟨hT, hSt, -, hG, -, hsorted, -⟩ := mem_groupTableRows hg
  obtain ⟨hmmem, hmle⟩ := jsMathMax_spec hm
  have hval_le : g.totalTime + g.totalGapTimeMs ≤ m :=
    hmle _ (List.mem_map_of_mem _ hg)
  cases hints : g.intervals with
  | nil => rw [hints] at hiv; cases hiv
  | cons x xs =>
    have hgs_eq : gs = x.startTime := by
      rw [hSt, hints] at hgs
      unfold getGroupStartTime at hgs
      simpa using hgs.symm
    have hwfg : ∀ a ∈ x :: xs, a.startTime ≤ a.stopTime := by
      intro a ha
      exact hwf g hg a (hints ▸ ha)
    have hiv2 : iv ∈ x :: xs := hints ▸ hiv
    have hoff_lo : 0 ≤ iv.startTime - gs := by
      have := head_start_le (hints ▸ hsorted) iv hiv2
      omega
    have hoff_hi : iv.startTime - gs ≤ m := by
      have hspan := start_sub_head_le_span x xs hwfg iv hiv2
      rw [hT, hG, hints] at hval_le
      omega
    have hwid_lo : 0 ≤ iv.stopTime - iv.startTime := by
      have := hwfg iv hiv2
      omega
    have hwid_hi : iv.stopTime - iv.startTime ≤ m := by
      have hdur := dur_le_getGroupTotalTime (x :: xs) hwfg hiv2
      have hGpos := getGroupTotalGapTime_nonneg (x :: xs)
      rw [hT, hG, hints] at hval_le
      omega
    have h1 := div_bounds hmpos hoff_lo hoff_hi
    have h2 := div_bounds hmpos hwid_lo hwid_hi
    exact ⟨h1.1, h1.2, h2.1, h2.2⟩

theorem claim_C8_amended_witness :
    0 ≤ offsetFraction 540 180 ⟨660, 720, none⟩ ∧
    offsetFraction 540 180 ⟨660, 720, none⟩ ≤ 1 ∧
    0 ≤ widthFraction 180 ⟨660, 720, none⟩ ∧
    widthFraction 180 ⟨660, 720, none⟩ ≤ 1 :=
  claim_C8_amended
    [Row.header "g1" "Mon", Row.content (some "(09:00 - 10:00)(11:00 - 12:00)") none]
    180 (by decide) (by decide) (by decide)
    ⟨"g1", "Mon", [⟨540, 600, none⟩, ⟨660, 720, none⟩],
      [⟨0, 0, 0, 500⟩, ⟨0, 0, 0, 500⟩], 120, some 540, some 720, 60, 0⟩
    (by decide) ⟨660, 720, none⟩ (by decide) 540 (by decide)

/-- C9 counterexample: an interval whose row has no activity cell gets the
fallback color hsla(0, 0%, 0%, 0.5) through the full pipeline: a
semi-transparent (alpha 0.5, not 1) black (lightness 0%), not an opaque
gray. -/
theorem claim_C9_counterexample :
    (groupTableRows [Row.header "g1" "Mon",
        Row.content (some "(09:00 - 10:00)") none]).map (fun g => g.intervalColors) =
      [[⟨0, 0, 0, 500⟩]] ∧
    ¬((⟨0, 0, 0, 500⟩ : Hsla).alphaPermille = 1000) ∧
    (⟨0, 0, 0, 500⟩ : Hsla).lightnessPct = 0 := by decide

/-- C9 amended: the label at index `idx` of the (duplicate-free,
first-occurrence-ordered) activity list receives hue
`idx * (360 / numberOfLabels)` at fixed saturation 70%, lightness 50% and
alpha 0.5; an interval whose activity has no assigned color receives the
SEMI-TRANSPARENT BLACK fallback hsla(0, 0%, 0%, 0.5) (not an opaque gray);
the activity list collected from the rows is always duplicate-free. -/
theorem claim_C9_amended :
    (∀ (acts : List String), acts.Nodup →
      ∀ (idx : Nat) (a : String), acts[idx]? = some a →
        List.lookup a (generateUniqueColorForActivities acts) =
          some ⟨idx * (360 / acts.length), 70, 50, 500⟩) ∧
    (∀ (colors : List (String × Hsla)) (act : Option String),
      act.bind (fun a => List.lookup a colors) = none →
        colorFor colors act = fallbackColor) ∧
    (fallbackColor.alphaPermille = 500 ∧ fallbackColor.lightnessPct = 0) ∧
    (∀ rows : List Row, (collectActivities rows).Nodup) := by
  refine ⟨?_, ?_, ⟨rfl, rfl⟩, collectActivities_nodup⟩
  · intro acts hnd idx a ha
    have h := lookup_assignColorsFrom acts hnd idx a ha (360 / acts.length) 0
    unfold generateUniqueColorForActivities
    simpa using h
  · intro colors act h
    unfold colorFor
    rw [h]
    rfl

theorem claim_C9_amended_witness :
    List.lookup "B" (generateUniqueColorForActivities ["A", "B"]) =
      some ⟨1 * (360 / (["A", "B"] : List String).length), 70, 50, 500⟩ ∧
    colorFor [] none = fallbackColor :=
  ⟨claim_C9_amended.1 ["A", "B"] (by decide) 1 "B" (by decide),
   claim_C9_amended.2.1 [] none (by decide)⟩

end GapsNLaps
